import Mathlib

/-!
Verification development for the PastoralScape discrete-event simulation core.

Shallow embedding of the Python sources under `src/`:
* `src/model/events.py`   — event enumeration, `EventQueue`
* `src/model/time.py`     — simulation clock (`Time.set_time`)
* `src/model/world.py`    — world grid (`move`, `step` live-cell materialization,
                            `neighborhood`, `nearest_cell`)
* `src/model/initialize.py` — `boundaries` (midpoint boundaries for bisection)
* `src/model/disease.py`  — `Disease.step` (SIRV transitions)
* `src/model/livestock.py`— `Animal.handle_event`, `Animal.spawn`, `Herd.cull`
* `src/driver.py`         — event dispatch loop

Conventions:
* Dates are embedded as numbers (`ℤ` day numbers for the event queue and
  clock, `ℚ` day numbers where the Python mixes float day offsets into
  dates).  Python date comparison and `relativedelta(days=..)` addition map
  to numeric comparison and addition.
* Animal/agent objects are identified by a numeric `id` (the source
  generates unique ids via `gen_id`); `subject=None` is embedded as id 0
  (tuple comparison in the source never compares subjects of different
  event kinds, so one numeric key space is faithful).
* `numpy.random` draws are embedded as an explicit stream `draws : ℕ → ℚ`
  consumed in program order; a value of `rand.rand()` is assumed to lie in
  `[0, 1)` where a theorem needs that fact.
* The Python `heapq` module is external library code; it is embedded by its
  documented contract: `heappush` adds an element to the collection and
  `heappop` removes and returns a smallest element (w.r.t. `<` on the
  stored tuples, here the lexicographic order on (time, kind value,
  subject)).
* Floating point arithmetic on coordinates/probabilities is embedded as
  exact rational arithmetic.
-/

namespace PastoralScape

/-! ### `src/model/events.py` — the `Event` enumeration

Order is significant: lower enum values win ties in the min-heap
(`events.py` lines 33–60). -/
inductive Event where
  | GISUPDATE
  | CULL_OLDAGE
  | LIV_FERTILE
  | LIV_BIRTH
  | VACCINATE
  | INFECTION
  | WEAROFF
  | MOVEMENT
  | WORLDSTEP
  | AGENTSTEP
deriving DecidableEq, Repr

/-- The numeric enum values from `events.py` lines 46–55. -/
def Event.value : Event → ℕ
  | .GISUPDATE => 1
  | .CULL_OLDAGE => 5
  | .LIV_FERTILE => 12
  | .LIV_BIRTH => 14
  | .VACCINATE => 20
  | .INFECTION => 30
  | .WEAROFF => 40
  | .MOVEMENT => 50
  | .WORLDSTEP => 100
  | .AGENTSTEP => 110

/-! ### `src/model/events.py` — `EventQueue`

A queue entry is the Python tuple `(time, event, subject)`.  Python orders
these tuples lexicographically; `Event.__lt__` compares the enum values;
subjects (only reached when time and kind agree) compare by the unique id
of the subject object. -/
structure Entry where
  time : ℤ
  event : Event
  subject : ℕ
deriving DecidableEq, Repr

/-- The `≤` on heap entries induced by Python's lexicographic tuple
comparison of `(time, event, subject)` triples. -/
def Entry.leB (a b : Entry) : Bool :=
  decide (a.time < b.time ∨ (a.time = b.time ∧
    (a.event.value < b.event.value ∨ (a.event.value = b.event.value ∧
      a.subject ≤ b.subject))))

/-- Contract of `heapq.heappop` on the entry multiset: remove and return a
least element (`events.py` line 112). -/
def popMin : List Entry → Option (Entry × List Entry)
  | [] => none
  | e :: es =>
    match popMin es with
    | none => some (e, [])
    | some (m, rest) => if e.leB m then some (e, es) else some (m, e :: rest)

/-- The event queue (`events.py` lines 73–114): a heap of entries with
optional lower/upper time bounds. -/
structure EventQueue where
  events : List Entry
  lo_time : Option ℤ
  hi_time : Option ℤ

/-- `EventQueue.in_bounds` (`events.py` lines 84–89). -/
def EventQueue.in_bounds (q : EventQueue) (t : ℤ) : Bool :=
  !(q.lo_time.elim false (fun lo => decide (lo > t))) &&
  !(q.hi_time.elim false (fun hi => decide (hi < t)))

/-- `EventQueue.add_event` (`events.py` lines 91–108).  Raising
`EventOutOfBounds((time, event, subject))` is embedded as
`Except.error` carrying the entry; `heappush` is embedded as consing onto
the entry multiset. -/
def EventQueue.add_event (q : EventQueue) (t : ℤ) (ev : Event) (s : ℕ) :
    Except Entry EventQueue :=
  if q.lo_time.elim false (fun lo => decide (lo > t)) then
    .error ⟨t, ev, s⟩
  else if q.hi_time.elim false (fun hi => decide (hi < t)) then
    .ok q
  else if ev = .WORLDSTEP then
    if (⟨t, ev, s⟩ : Entry) ∈ q.events then .ok q
    else .ok { q with events := ⟨t, ev, s⟩ :: q.events }
  else .ok { q with events := ⟨t, ev, s⟩ :: q.events }

/-- `EventQueue.next_event` (`events.py` lines 110–114). -/
def EventQueue.next_event (q : EventQueue) : Option (Entry × EventQueue) :=
  match popMin q.events with
  | none => none
  | some (m, rest) => some (m, { q with events := rest })

/-- Successive `next_event()` results until exhaustion, with explicit fuel
(the queue length never grows during draining, so `q.events.length` fuel is
always enough). -/
def EventQueue.drainFuel : ℕ → EventQueue → List Entry
  | 0, _ => []
  | fuel+1, q =>
    match q.next_event with
    | none => []
    | some (m, q') => m :: EventQueue.drainFuel fuel q'

/-- The full sequence of successive `next_event()` results of a queue. -/
def EventQueue.drain (q : EventQueue) : List Entry :=
  EventQueue.drainFuel q.events.length q

/-- Building a queue from a sequence of `add_event` requests, propagating
the `EventOutOfBounds` error. -/
def buildQueue (lo hi : Option ℤ) (reqs : List (ℤ × Event × ℕ)) :
    Except Entry EventQueue :=
  reqs.foldlM (fun q r => q.add_event r.1 r.2.1 r.2.2) ⟨[], lo, hi⟩

/-! ### `src/model/time.py` — simulation clock -/
structure Time where
  initial_date : ℤ
  current_time : ℤ
  stepsize : ℤ
  last_timestep : Option ℤ

/-- `Time.set_time` (`time.py` lines 129–137).  Raising
`TimeOrderViolation((time, self.current_time))` is embedded as
`Except.error` carrying that pair. -/
def Time.set_time (tm : Time) (t : ℤ) : Except (ℤ × ℤ) Time :=
  if tm.current_time > t then .error (t, tm.current_time)
  else .ok { tm with current_time := t }

/-- Folding a sequence of `set_time` calls, propagating the error. -/
def applySetTimes (tm : Time) : List ℤ → Except (ℤ × ℤ) Time
  | [] => .ok tm
  | t :: ts =>
    match tm.set_time t with
    | .error e => .error e
    | .ok tm' => applySetTimes tm' ts

/-! ### `src/model/world.py` — the world grid

The grid is embedded as a function from coordinates to the list of resident
agent ids; `agent.location` is embedded as the map `loc`; `live_cells`
starts as `None` and is materialized by the first `World.step`;
`neighbor_cache` is the memoization dictionary of `neighborhood`, an
association list keyed by position (as in the source, the radius is not
part of the key). -/
structure World where
  height : ℕ
  width : ℕ
  grid : ℕ × ℕ → List ℕ
  loc : ℕ → ℕ × ℕ
  live_cells : Option (Finset (ℕ × ℕ))
  neighbor_cache : List ((ℕ × ℕ) × List ((ℕ × ℕ) × ℤ))

/-- `World.move` (`world.py` lines 248–271).  `none` embeds the Python
error paths: `AttributeError` when `live_cells` is still `None`,
`ValueError` from `residents.remove(agent)` when the agent is not resident
at its recorded location, and `KeyError` from `live_cells.remove` when the
emptied cell is missing from the index. -/
def World.move (w : World) (a : ℕ) (p : ℕ × ℕ) : Option World :=
  match w.live_cells with
  | none => none
  | some live =>
    let old := w.loc a
    if a ∈ w.grid old then
      let g1 : ℕ × ℕ → List ℕ :=
        fun c => if c = old then (w.grid old).erase a else w.grid c
      let live1opt : Option (Finset (ℕ × ℕ)) :=
        if g1 old = [] then
          (if old ∈ live then some (live.erase old) else none)
        else some live
      match live1opt with
      | none => none
      | some live1 =>
        let g2 : ℕ × ℕ → List ℕ :=
          fun c => if c = p then g1 p ++ [a] else g1 c
        let live2 := if p ∉ live1 then insert p live1 else live1
        some
          { w with
            grid := g2
            loc := fun b => if b = a then p else w.loc b
            live_cells := some live2 }
    else none

/-- The live-cell materialization performed by `World.step` (`world.py`
lines 350–356) when `live_cells` is `None`: a full scan of the in-bounds
grid.  The rest of `World.step` (foraging, disease propagation, the
last-timestep bookkeeping) mutates neither `grid` residency nor
`live_cells`, so it is omitted from this embedding. -/
def World.stepLive (w : World) : World :=
  match w.live_cells with
  | none =>
    { w with
      live_cells :=
        some (((Finset.range w.height) ×ˢ (Finset.range w.width)).filter
          (fun c => w.grid c ≠ [])) }
  | some _ => w

/-- A sequence of `World.move` calls, stopping at the first error. -/
def World.applyMoves (w : World) : List (ℕ × (ℕ × ℕ)) → Option World
  | [] => some w
  | (a, p) :: ms =>
    match w.move a p with
    | none => none
    | some w' => w'.applyMoves ms

/-- The live-cell index is exactly the set of coordinates with a non-empty
resident set. -/
def World.liveExact (w : World) (L : Finset (ℕ × ℕ)) : Prop :=
  ∀ c, c ∈ L ↔ w.grid c ≠ []

/-- All residents sit at in-bounds coordinates. -/
def World.residentsInBounds (w : World) : Prop :=
  ∀ c, w.grid c ≠ [] → c.1 < w.height ∧ c.2 < w.width

/-! ### `src/model/world.py` — `neighborhood` -/
/-- `np.arange(lo, hi)` for integer arguments: the integers
`lo, lo+1, ...` strictly below `hi` (the upper endpoint is excluded). -/
def intRange (lo hi : ℤ) : List ℤ :=
  (List.range (hi - lo).toNat).map (fun (k : ℕ) => lo + (k : ℤ))

/-- The scan inside `World.neighborhood` (`world.py` lines 280–288).  The
radius is embedded as an integer; the float distance `math.hypot(di, dj)`
is embedded by its square `di² + dj²`, compared against `r²` (for `r ≥ 0`
this is exactly `hypot(di,dj) ≤ r`, and for `r < 0` both ranges below are
empty), and the squared distance is what is stored in the returned
pairs. -/
def neighborsCompute (height width : ℕ) (pos : ℕ × ℕ) (r : ℤ) :
    List ((ℕ × ℕ) × ℤ) :=
  (intRange (max 0 ((pos.1 : ℤ) - r))
      (min (height : ℤ) ((pos.1 : ℤ) + r))).flatMap
    (fun i =>
      (intRange (max 0 ((pos.2 : ℤ) - r))
          (min (width : ℤ) ((pos.2 : ℤ) + r))).filterMap
        (fun j =>
          if i ≠ (pos.1 : ℤ) ∨ j ≠ (pos.2 : ℤ) then
            (if ((pos.1 : ℤ) - i) ^ 2 + ((pos.2 : ℤ) - j) ^ 2 ≤ r ^ 2 then
              some ((i.toNat, j.toNat),
                ((pos.1 : ℤ) - i) ^ 2 + ((pos.2 : ℤ) - j) ^ 2)
            else none)
          else none))

/-- `World.neighborhood` (`world.py` lines 273–293): memoized per
position (the source tests `if position not in self.neighbor_cache`; the
radius is not part of the key). -/
def World.neighborhood (w : World) (pos : ℕ × ℕ) (r : ℤ) :
    List ((ℕ × ℕ) × ℤ) × World :=
  match List.lookup pos w.neighbor_cache with
  | some ns => (ns, w)
  | none =>
    let ns := neighborsCompute w.height w.width pos r
    (ns, { w with neighbor_cache := (pos, ns) :: w.neighbor_cache })

/-- An empty 3×3 sample world with a fresh neighborhood cache. -/
def sampleWorld3 : World :=
  { height := 3, width := 3,
    grid := fun _ => [],
    loc := fun _ => (0, 0),
    live_cells := none,
    neighbor_cache := [] }

/-! ### `src/model/disease.py` — SIRV states and `Disease.step`

`Disease.step` touches, per animal, only the compartment state for the
stepped disease (and herd membership on death), so an animal is embedded
as an id plus that one compartment state.  The `rand.rand()` draws are the
stream values `draws 0, draws 1, ...` in program order: first one draw per
Susceptible animal, then one per Infected, then one per Recovered, then —
only when the scaled `p_vs` is positive — one per Vaccinated. -/
inductive SIRV where
  | S
  | I
  | R
  | V
deriving DecidableEq, Repr

structure DAnimal where
  id : ℕ
  state : SIRV
deriving DecidableEq, Repr

/-- The per-disease parameters read by `Disease.step` (`disease.py` lines
116–132). -/
structure DParams where
  p_si : ℚ
  p_ir : ℚ
  p_id : ℚ
  p_rs : ℚ
  p_vs : ℚ
  disease_timefactor : ℚ

/-- The population-dependent infection pressure (`disease.py` lines
116–119): `p_si * |I| / popsize`, with the division guarded by the
`popsize > 0` check. -/
def infectionPressure (base : ℚ) (nInf popsize : ℕ) : ℚ :=
  if popsize > 0 then base * (nInf : ℚ) / (popsize : ℚ) else 0

/-- The outcome of `Disease.step` for one animal, given the partition
lists `s i r v` (which fix each animal's draw index) — `disease.py` lines
134–161.  `none` means the animal died (`animal.herd.cull(animal)`). -/
def stepOutcome (pr : DParams) (dt : ℚ) (draws : ℕ → ℚ)
    (s i r v : List DAnimal) (a : DAnimal) : Option DAnimal :=
  let scale := dt / pr.disease_timefactor
  let p_si1 := infectionPressure pr.p_si i.length
    (s.length + i.length + r.length + v.length) * scale
  let p_ir1 := pr.p_ir * scale
  let p_id1 := pr.p_id * scale
  let p_rs1 := pr.p_rs * scale
  let p_vs1 := pr.p_vs * scale
  match a.state with
  | .S =>
    some { a with
      state := if draws (s.indexOf a) < p_si1 then SIRV.I else SIRV.S }
  | .I =>
    let p := draws (s.length + i.indexOf a)
    if p < p_ir1 + p_id1 then
      (if p < p_id1 then none else some { a with state := SIRV.R })
    else some a
  | .R =>
    some { a with
      state :=
        if draws (s.length + i.length + r.indexOf a) < p_rs1 then SIRV.S
        else SIRV.R }
  | .V =>
    if p_vs1 > 0 then
      some { a with
        state :=
          if draws (s.length + i.length + r.length + v.indexOf a) < p_vs1
          then SIRV.S else SIRV.V }
    else some a

/-- `Disease.step` (`disease.py` lines 82–162) over a collection of herds:
partitions all animals by compartment, computes the scaled transition
probabilities, samples each partition in order, updates states, and culls
disease deaths from their herds.  Returns the updated herds together with
the number of `rand.rand()` draws consumed. -/
def diseaseStep (pr : DParams) (dt : ℚ) (draws : ℕ → ℚ)
    (herds : List (List DAnimal)) : List (List DAnimal) × ℕ :=
  let all := herds.flatten
  let s := all.filter (fun a => decide (a.state = SIRV.S))
  let i := all.filter (fun a => decide (a.state = SIRV.I))
  let r := all.filter (fun a => decide (a.state = SIRV.R))
  let v := all.filter (fun a => decide (a.state = SIRV.V))
  (herds.map (fun h => h.filterMap (stepOutcome pr dt draws s i r v)),
   s.length + i.length + r.length +
     (if pr.p_vs * (dt / pr.disease_timefactor) > 0 then v.length else 0))

/-- The scaled infection pressure used by `diseaseStep`, expressed via the
total population size. -/
def scaledPSI (pr : DParams) (dt : ℚ) (herds : List (List DAnimal)) : ℚ :=
  infectionPressure pr.p_si
    ((herds.flatten.filter (fun a => decide (a.state = SIRV.I))).length)
    herds.flatten.length * (dt / pr.disease_timefactor)

/-! ### `src/model/livestock.py` — animals, birth handling; `src/driver.py`
— event dispatch

Disease names are embedded as numeric keys; an animal's `diseases` dict is
an insertion-ordered association list.  The two random draws used by
`Animal.spawn` are passed explicitly: `u` for the `rand.rand()` gender
draw and `z` for the `rand.randn()` lifespan draw; `childId` is the
`gen_id()` value of the offspring.  Scheduling requests are the argument
triples the code passes to `event_queue.add_event`. -/
inductive Gender where
  | FEMALE
  | MALE
deriving DecidableEq, Repr

structure Animal where
  id : ℕ
  gender : Gender
  birthday : ℚ
  active : Bool
  fertile : Bool
  pregnant : Bool
  nursing : Bool
  health : ℚ
  diseases : List (ℕ × SIRV)
deriving DecidableEq, Repr

/-- The `params['livestock']` entries read by spawn/handle_event. -/
structure LParams where
  bull_probability : ℚ
  nursing_period : ℚ
  gestation_period : ℚ
  maturity : ℚ
  death_mu : ℚ
  death_sigma : ℚ
  initial_health : ℚ

/-- `Animal.spawn` (`livestock.py` lines 179–208): samples the gender
(`FEMALE` iff `u > bull_probability`), creates the child in the parent's
herd with the constructor defaults (`livestock.py` lines 63–93), sets the
child Susceptible for every disease the parent tracks, and schedules the
child's end of life (and, for females, its maturity event).  Returns the
child and the issued `add_event` request triples. -/
def Animal.spawn (params : LParams) (parent : Animal) (now : ℚ)
    (u z : ℚ) (childId : ℕ) : Animal × List (ℚ × Event × ℕ) :=
  let gender := if u > params.bull_probability then Gender.FEMALE
                else Gender.MALE
  let child : Animal :=
    { id := childId, gender := gender, birthday := now, active := true,
      fertile := false, pregnant := false, nursing := false,
      health := params.initial_health,
      diseases := parent.diseases.map (fun p => (p.1, SIRV.S)) }
  let lifespan := params.death_sigma * z + params.death_mu
  (child,
   (now + lifespan, Event.CULL_OLDAGE, childId) ::
     (if gender = Gender.FEMALE then
       [(now + params.maturity, Event.LIV_FERTILE, childId)]
      else []))

/-- `Animal.handle_event` (`livestock.py` lines 134–159).  Returns the
updated animal, the updated herd (`self.herd.add(child)` appends), and the
issued `add_event` requests; `none` embeds a failed `assert` or the
unknown-event `exit()`. -/
def Animal.handle_event (params : LParams) (a : Animal) (herd : List Animal)
    (now : ℚ) (ev : Event) (u z : ℚ) (childId : ℕ) :
    Option (Animal × List Animal × List (ℚ × Event × ℕ)) :=
  match ev with
  | .LIV_BIRTH =>
    if a.pregnant && !a.fertile then
      let sp := Animal.spawn params a now u z childId
      some ({ a with pregnant := false, nursing := true },
        herd ++ [sp.1],
        sp.2 ++ [(now + params.nursing_period, Event.LIV_FERTILE, a.id)])
    else none
  | .LIV_FERTILE =>
    if !a.pregnant then
      some ({ a with nursing := false, fertile := true }, herd, [])
    else none
  | _ => none

/-- The Python dict assignment `animal.diseases[disease] = state` for a
key already present (the data model guarantees every tracked disease has a
state). -/
def setDiseaseState (ds : List (ℕ × SIRV)) (k : ℕ) (st : SIRV) :
    List (ℕ × SIRV) :=
  ds.map (fun p => if p.1 = k then (p.1, st) else p)

/-- The driver loop's dispatch of one event carrying an animal subject
(`driver.py` lines 140–144, 166–179): `LIV_BIRTH` and `LIV_FERTILE` are
forwarded to `Animal.handle_event` without any liveness check, while
`CULL_OLDAGE` and `WEAROFF` first test `subject.active` and do nothing for
an inactive subject.  `wearoffKey` is the disease component of a WEAROFF
subject tuple.  (For CULL_OLDAGE the herd removal performed by
`Herd.cull` is reflected in the `active := false` flag; the tracker call
is observational only.) -/
def driverDispatch (params : LParams) (now : ℚ) (ev : Event) (a : Animal)
    (herd : List Animal) (wearoffKey : ℕ) (u z : ℚ) (childId : ℕ) :
    Option (Animal × List Animal × List (ℚ × Event × ℕ)) :=
  match ev with
  | .LIV_BIRTH => Animal.handle_event params a herd now ev u z childId
  | .LIV_FERTILE => Animal.handle_event params a herd now ev u z childId
  | .CULL_OLDAGE =>
    if a.active then
      some ({ a with active := false }, herd.erase a, [])
    else some (a, herd, [])
  | .WEAROFF =>
    if a.active then
      some
        ({ a with
           diseases := setDiseaseState a.diseases wearoffKey SIRV.S },
         herd, [])
    else some (a, herd, [])
  | _ => none

/-- A culled (inactive) animal that is no longer pregnant but still
nursing, as left behind by a cull between LIV_BIRTH and LIV_FERTILE. -/
def staleAnimal : Animal :=
  { id := 3, gender := Gender.FEMALE, birthday := 0, active := false,
    fertile := false, pregnant := false, nursing := true, health := 1,
    diseases := [(0, SIRV.V)] }

/-! ### `src/model/initialize.py` `boundaries` and `src/model/world.py`
`nearest_cell`

`boundaries(centers)` builds, for `m` cell centers, the `m+1` bisection
boundaries: interior midpoints plus mirrored end boundaries.  This closed
form is faithful for `m ≥ 2`; for `m = 1` the source reads an
uninitialized `np.ndarray` entry (`b[1]`), so no meaning is assigned.
`nearest_cell` runs one bisection loop per axis over those boundaries;
its `while hi-lo > 1` loop is embedded with explicit fuel (`n` suffices,
as proved below). -/
/-- `boundaries` (`initialize.py` lines 51–58) as a function of the index:
`b[j] = (c[j-1]+c[j])/2` for `0 < j < m`, with mirrored ends
`b[0] = c[0] - (b[1]-c[0])` and `b[m] = c[m-1] + (c[m-1]-b[m-1])`. -/
def boundaries (c : ℕ → ℚ) (m : ℕ) : ℕ → ℚ := fun idx =>
  if idx = 0 then c 0 - ((c 0 + c 1) / 2 - c 0)
  else if idx = m then
    c (m - 1) + (c (m - 1) - (c (m - 2) + c (m - 1)) / 2)
  else (c (idx - 1) + c idx) / 2

/-- One bisection loop of `nearest_cell` (`world.py` lines 200–210): while
`hi - lo > 1`, probe `b idx`, shrink the bracket to the matching side and
re-center `idx`. -/
def bisectLoop (b : ℕ → ℚ) (q : ℚ) : ℕ → ℕ → ℕ → ℕ → ℕ
  | 0, _, _, idx => idx
  | fuel + 1, lo, hi, idx =>
    if hi - lo > 1 then
      if q < b idx then
        bisectLoop b q fuel lo idx ((idx - lo) / 2 + lo)
      else
        bisectLoop b q fuel idx hi ((hi - idx) / 2 + idx)
    else idx

/-- One axis of `nearest_cell`: `n` is the boundary-array length
(`len(self.lat_boundaries)`), the loop starts with `lo = 0`,
`hi = n - 1`, `idx = n // 2`. -/
def bisectSearch (b : ℕ → ℚ) (n : ℕ) (q : ℚ) : ℕ :=
  bisectLoop b q n 0 (n - 1) (n / 2)

/-- `World.nearest_cell` (`world.py` lines 184–228): two independent
bisections over the latitude and longitude boundary arrays, assembled
into a `(row, col)` index according to `first_dim_lat`. -/
def nearest_cell (latB lonB : ℕ → ℚ) (nLat nLon : ℕ)
    (first_dim_lat : Bool) (latlon : ℚ × ℚ) : ℕ × ℕ :=
  let lat_idx := bisectSearch latB nLat latlon.1
  let lon_idx := bisectSearch lonB nLon latlon.2
  if first_dim_lat then (lat_idx, lon_idx) else (lon_idx, lat_idx)

/-- The coordinate center of grid cell `(i, j)` on an axis-aligned grid:
with `first_dim_lat` the latitude varies along the first index, otherwise
along the second (`initialize.py` lines 90–102). -/
def cellCenter (latC lonC : ℕ → ℚ) (first_dim_lat : Bool)
    (ij : ℕ × ℕ) : ℚ × ℚ :=
  if first_dim_lat then (latC ij.1, lonC ij.2) else (latC ij.2, lonC ij.1)

/-- Squared Euclidean distance between two coordinate pairs (the exact
stand-in for the float distance used by a brute-force nearest search). -/
def sqDist (p p2 : ℚ × ℚ) : ℚ := (p.1 - p2.1) ^ 2 + (p.2 - p2.2) ^ 2

/-- A one-cell sample world used by witnesses: a single agent (id 7)
resident at the origin, live-cell index not yet materialized. -/
def sampleWorld : World :=
  { height := 1, width := 1,
    grid := fun c => if c = (0, 0) then [7] else [],
    loc := fun _ => (0, 0),
    live_cells := none,
    neighbor_cache := [] }

/-! ### Theorems -/

theorem Entry.leB_total (a b : Entry) : a.leB b = true ∨ b.leB a = true := by
  simp only [Entry.leB, decide_eq_true_eq]
  omega

theorem Entry.leB_trans {a b c : Entry} (h1 : a.leB b = true)
    (h2 : b.leB c = true) : a.leB c = true := by
  simp only [Entry.leB, decide_eq_true_eq] at h1 h2 ⊢
  omega

theorem popMin_none_iff (l : List Entry) : popMin l = none ↔ l = [] := by
  cases l with
  | nil => simp [popMin]
  | cons e es =>
    simp only [popMin]
    cases h : popMin es with
    | none => simp
    | some p =>
      obtain ⟨m, rest⟩ := p
      by_cases hle : e.leB m <;> simp [hle]

theorem popMin_perm (l : List Entry) (m : Entry) (rest : List Entry)
    (h : popMin l = some (m, rest)) : l.Perm (m :: rest) := by
  induction l generalizing m rest with
  | nil => simp [popMin] at h
  | cons e es ih =>
    simp only [popMin] at h
    cases hes : popMin es with
    | none =>
      rw [hes] at h
      have hnil : es = [] := (popMin_none_iff es).mp hes
      simp only [Option.some.injEq, Prod.mk.injEq] at h
      obtain ⟨rfl, rfl⟩ := h
      simp [hnil]
    | some p =>
      obtain ⟨m', rest'⟩ := p
      rw [hes] at h
      by_cases hle : e.leB m' = true
      · simp only [hle, if_true, Option.some.injEq, Prod.mk.injEq] at h
        obtain ⟨rfl, rfl⟩ := h
        exact List.Perm.refl _
      · simp only [hle, if_false, Option.some.injEq, Prod.mk.injEq,
          Bool.false_eq_true] at h
        have hm : m' = m := h.1
        have hr : e :: rest' = rest := h.2
        subst hm; subst hr
        exact ((ih m' rest' hes).cons e).trans (List.Perm.swap m' e rest')

theorem popMin_min (l : List Entry) (m : Entry) (rest : List Entry)
    (h : popMin l = some (m, rest)) : ∀ x ∈ rest, m.leB x = true := by
  induction l generalizing m rest with
  | nil => simp [popMin] at h
  | cons e es ih =>
    simp only [popMin] at h
    cases hes : popMin es with
    | none =>
      rw [hes] at h
      simp only [Option.some.injEq, Prod.mk.injEq] at h
      obtain ⟨rfl, rfl⟩ := h
      intro x hx
      simp at hx
    | some p =>
      obtain ⟨m', rest'⟩ := p
      rw [hes] at h
      by_cases hle : e.leB m' = true
      · simp only [hle, if_true, Option.some.injEq, Prod.mk.injEq] at h
        intro x hx
        rw [← h.2] at hx
        rw [← h.1]
        rcases List.mem_cons.mp
            ((popMin_perm es m' rest' hes).mem_iff.mp hx) with h1 | h1
        · rw [h1]; exact hle
        · exact Entry.leB_trans hle (ih m' rest' hes x h1)
      · simp only [hle, if_false, Option.some.injEq, Prod.mk.injEq,
          Bool.false_eq_true] at h
        intro x hx
        rw [← h.2] at hx
        rw [← h.1]
        rcases List.mem_cons.mp hx with h1 | h1
        · rw [h1]
          rcases Entry.leB_total e m' with h2 | h2
          · exact absurd h2 hle
          · exact h2
        · exact ih m' rest' hes x h1

theorem popMin_length (l : List Entry) (m : Entry) (rest : List Entry)
    (h : popMin l = some (m, rest)) : rest.length + 1 = l.length := by
  have := (popMin_perm l m rest h).length_eq
  simpa using this.symm

theorem drainFuel_subset (fuel : ℕ) :
    ∀ (q : EventQueue), ∀ x ∈ EventQueue.drainFuel fuel q, x ∈ q.events := by
  induction fuel with
  | zero => intro q x hx; simp [EventQueue.drainFuel] at hx
  | succ n ih =>
    intro q x hx
    simp only [EventQueue.drainFuel] at hx
    cases hq : q.next_event with
    | none => rw [hq] at hx; simp at hx
    | some p =>
      obtain ⟨m, q'⟩ := p
      rw [hq] at hx
      simp only [EventQueue.next_event] at hq
      cases hpop : popMin q.events with
      | none => rw [hpop] at hq; simp at hq
      | some p2 =>
        obtain ⟨m2, rest2⟩ := p2
        rw [hpop] at hq
        simp only [Option.some.injEq, Prod.mk.injEq] at hq
        rw [← hq.1, ← hq.2] at hx
        have hperm := popMin_perm q.events m2 rest2 hpop
        rcases List.mem_cons.mp hx with h1 | h1
        · subst h1
          exact hperm.mem_iff.mpr (List.mem_cons_self _ _)
        · have hx2 : x ∈ rest2 := ih _ x h1
          exact hperm.mem_iff.mpr (List.mem_cons_of_mem _ hx2)

theorem drainFuel_sorted (fuel : ℕ) :
    ∀ (q : EventQueue),
      List.Pairwise (fun a b => a.leB b = true) (EventQueue.drainFuel fuel q) := by
  induction fuel with
  | zero => intro q; simp [EventQueue.drainFuel]
  | succ n ih =>
    intro q
    simp only [EventQueue.drainFuel]
    cases hq : q.next_event with
    | none => simp
    | some p =>
      obtain ⟨m, q'⟩ := p
      simp only [EventQueue.next_event] at hq
      cases hpop : popMin q.events with
      | none => rw [hpop] at hq; simp at hq
      | some p2 =>
        obtain ⟨m2, rest2⟩ := p2
        rw [hpop] at hq
        simp only [Option.some.injEq, Prod.mk.injEq] at hq
        rw [← hq.1, ← hq.2]
        refine List.pairwise_cons.mpr ⟨?_, ih _⟩
        intro x hx
        have hxrest : x ∈ rest2 := drainFuel_subset n _ x hx
        exact popMin_min q.events m2 rest2 hpop x hxrest

theorem drain_subset (q : EventQueue) : ∀ x ∈ q.drain, x ∈ q.events :=
  drainFuel_subset q.events.length q

theorem drain_sorted (q : EventQueue) :
    List.Pairwise (fun a b => a.leB b = true) q.drain :=
  drainFuel_sorted q.events.length q

theorem applySetTimes_mono (ts : List ℤ) :
    ∀ (tm tm' : Time), applySetTimes tm ts = .ok tm' →
      tm.current_time ≤ tm'.current_time := by
  induction ts with
  | nil =>
    intro tm tm' h
    simp only [applySetTimes, Except.ok.injEq] at h
    rw [h]
  | cons t ts ih =>
    intro tm tm' h
    simp only [applySetTimes] at h
    cases hst : tm.set_time t with
    | error e => rw [hst] at h; exact absurd h (by simp)
    | ok tm1 =>
      rw [hst] at h
      have h1 : tm.current_time ≤ tm1.current_time := by
        simp only [Time.set_time] at hst
        by_cases hc : tm.current_time > t
        · simp [hc] at hst
        · simp only [hc, if_false] at hst
          cases hst
          simp only []
          omega
      exact le_trans h1 (ih tm1 tm' h)

/-! ### Theorems for claims C1, C2, C7 -/
/-- C1: for every sequence of `add_event` calls, successive `next_event()`
calls return the scheduled events in non-decreasing scheduled-time order,
and among events sharing a scheduled time, in non-decreasing
event-kind-ordinal order, independent of the order in which the events were
added (the conclusion holds for whatever queue the additions produce). -/
theorem C1_next_event_ordered (lo hi : Option ℤ)
    (reqs : List (ℤ × Event × ℕ)) (q : EventQueue)
    (h : buildQueue lo hi reqs = .ok q) :
    List.Pairwise (fun a b : Entry =>
      a.time < b.time ∨ (a.time = b.time ∧ a.event.value ≤ b.event.value))
      q.drain := by
  refine (drain_sorted q).imp ?_
  intro a b hab
  simp only [Entry.leB, decide_eq_true_eq] at hab
  omega

/-- Witness for C1 at a concrete out-of-order schedule sequence. -/
theorem C1_next_event_ordered_witness :
    buildQueue (some 0) (some 10)
        [(5, .AGENTSTEP, 0), (3, .WORLDSTEP, 0), (5, .GISUPDATE, 0)] =
      .ok ⟨[⟨5, .GISUPDATE, 0⟩, ⟨3, .WORLDSTEP, 0⟩, ⟨5, .AGENTSTEP, 0⟩],
        some 0, some 10⟩ ∧
    List.Pairwise (fun a b : Entry =>
      a.time < b.time ∨ (a.time = b.time ∧ a.event.value ≤ b.event.value))
      (EventQueue.drain ⟨[⟨5, .GISUPDATE, 0⟩, ⟨3, .WORLDSTEP, 0⟩,
        ⟨5, .AGENTSTEP, 0⟩], some 0, some 10⟩) :=
  ⟨by rfl,
   C1_next_event_ordered (some 0) (some 10)
     [(5, .AGENTSTEP, 0), (3, .WORLDSTEP, 0), (5, .GISUPDATE, 0)] _ (by rfl)⟩

/-- C2: with bounds `lo ≤ hi`, `add_event` raises `EventOutOfBounds` exactly
when the time is strictly before `lo`; a time strictly after `hi` returns
normally without inserting (and the entry then never appears in any
subsequent `next_event()` result); a time inside the window is inserted. -/
theorem C2_add_event_bounds (q : EventQueue) (lo hi t : ℤ) (ev : Event)
    (s : ℕ) (hlo : q.lo_time = some lo) (hhi : q.hi_time = some hi) :
    (t < lo → q.add_event t ev s = .error ⟨t, ev, s⟩) ∧
    (lo ≤ t → hi < t →
      q.add_event t ev s = .ok q ∧
      ((⟨t, ev, s⟩ : Entry) ∉ q.events → (⟨t, ev, s⟩ : Entry) ∉ q.drain)) ∧
    (lo ≤ t → t ≤ hi →
      ∃ q', q.add_event t ev s = .ok q' ∧ (⟨t, ev, s⟩ : Entry) ∈ q'.events) := by
  refine ⟨?_, ?_, ?_⟩
  · intro ht
    have hLo : q.lo_time.elim false (fun l => decide (l > t)) = true := by
      rw [hlo]; simpa using ht
    simp [EventQueue.add_event, hLo]
  · intro h1 h2
    have hLo : q.lo_time.elim false (fun l => decide (l > t)) = false := by
      rw [hlo]; simpa using h1
    have hHi : q.hi_time.elim false (fun h => decide (h < t)) = true := by
      rw [hhi]; simpa using h2
    refine ⟨by simp [EventQueue.add_event, hLo, hHi], ?_⟩
    intro hnot hmem
    exact hnot (drain_subset q _ hmem)
  · intro h1 h2
    have hLo : q.lo_time.elim false (fun l => decide (l > t)) = false := by
      rw [hlo]; simpa using h1
    have hHi : q.hi_time.elim false (fun h => decide (h < t)) = false := by
      rw [hhi]; simpa using h2
    by_cases hw : ev = .WORLDSTEP
    · subst hw
      by_cases hm : (⟨t, .WORLDSTEP, s⟩ : Entry) ∈ q.events
      · exact ⟨q, by simp [EventQueue.add_event, hLo, hHi, hm], hm⟩
      · refine ⟨{ q with events := ⟨t, .WORLDSTEP, s⟩ :: q.events },
          by simp [EventQueue.add_event, hLo, hHi, hm], ?_⟩
        exact List.mem_cons_self _ _
    · refine ⟨{ q with events := ⟨t, ev, s⟩ :: q.events },
        by simp [EventQueue.add_event, hLo, hHi, hw], ?_⟩
      exact List.mem_cons_self _ _

/-- Witness for C2 at concrete bounds and times. -/
theorem C2_add_event_bounds_witness :
    ((-1 : ℤ) < 0 →
      EventQueue.add_event ⟨[], some 0, some 10⟩ (-1) .INFECTION 7 =
        .error ⟨-1, .INFECTION, 7⟩) ∧
    ((0 : ℤ) ≤ -1 → (10 : ℤ) < -1 →
      EventQueue.add_event ⟨[], some 0, some 10⟩ (-1) .INFECTION 7 =
        .ok ⟨[], some 0, some 10⟩ ∧
      ((⟨-1, .INFECTION, 7⟩ : Entry) ∉ ([] : List Entry) →
        (⟨-1, .INFECTION, 7⟩ : Entry) ∉
          EventQueue.drain ⟨[], some 0, some 10⟩)) ∧
    ((0 : ℤ) ≤ -1 → (-1 : ℤ) ≤ 10 →
      ∃ q', EventQueue.add_event ⟨[], some 0, some 10⟩ (-1) .INFECTION 7 =
        .ok q' ∧ (⟨-1, .INFECTION, 7⟩ : Entry) ∈ q'.events) :=
  C2_add_event_bounds ⟨[], some 0, some 10⟩ 0 10 (-1) .INFECTION 7 rfl rfl

/-- C7: `set_time` raises `TimeOrderViolation` iff the new date strictly
precedes the current date, otherwise it sets the current date (advancing to
an equal date succeeds); across any sequence of successful calls the
current date is non-decreasing. -/
theorem C7_set_time_monotone (tm : Time) (t : ℤ) :
    ((∃ e, tm.set_time t = .error e) ↔ t < tm.current_time) ∧
    (tm.current_time ≤ t →
      tm.set_time t = .ok { tm with current_time := t }) ∧
    (∀ tm', tm.set_time t = .ok tm' →
      tm'.current_time = t ∧ tm.current_time ≤ tm'.current_time) ∧
    (∀ ts tm', applySetTimes tm ts = .ok tm' →
      tm.current_time ≤ tm'.current_time) := by
  refine ⟨?_, ?_, ?_, fun ts tm' h => applySetTimes_mono ts tm tm' h⟩
  · constructor
    · rintro ⟨e, he⟩
      simp only [Time.set_time] at he
      by_cases hc : tm.current_time > t
      · omega
      · simp [hc] at he
    · intro hlt
      exact ⟨(t, tm.current_time), by simp [Time.set_time]; omega⟩
  · intro hle
    simp only [Time.set_time]
    rw [if_neg (by omega)]
  · intro tm' h
    simp only [Time.set_time] at h
    by_cases hc : tm.current_time > t
    · simp [hc] at h
    · simp only [hc, if_false] at h
      cases h
      refine ⟨rfl, ?_⟩
      show tm.current_time ≤ t
      omega

theorem stepLive_exact (w : World) (hb : w.residentsInBounds)
    (hnone : w.live_cells = none) :
    ∃ L, (w.stepLive).live_cells = some L ∧ (w.stepLive).liveExact L := by
  refine ⟨((Finset.range w.height) ×ˢ (Finset.range w.width)).filter
    (fun c => w.grid c ≠ []), ?_, ?_⟩
  · simp [World.stepLive, hnone]
  · intro c
    have hgrid : (w.stepLive).grid = w.grid := by
      simp [World.stepLive, hnone]
    rw [hgrid]
    simp only [Finset.mem_filter, Finset.mem_product, Finset.mem_range]
    constructor
    · rintro ⟨_, h2⟩; exact h2
    · intro h
      exact ⟨⟨(hb c h).1, (hb c h).2⟩, h⟩

theorem mem_insertIf {α : Type} [DecidableEq α] (s : Finset α) (p c : α) :
    (c ∈ if p ∉ s then insert p s else s) ↔ (c = p ∨ c ∈ s) := by
  by_cases hp : p ∈ s
  · simp only [hp, not_true_eq_false, if_false]
    exact ⟨Or.inr, fun h => h.elim (fun e => e ▸ hp) id⟩
  · simp [hp, Finset.mem_insert]

theorem move_exact (w : World) (L : Finset (ℕ × ℕ)) (a : ℕ) (p : ℕ × ℕ)
    (w' : World) (hlive : w.live_cells = some L) (hex : w.liveExact L)
    (hmv : w.move a p = some w') :
    ∃ L', w'.live_cells = some L' ∧ w'.liveExact L' := by
  simp only [World.move, hlive] at hmv
  by_cases ha : a ∈ w.grid (w.loc a)
  case neg => simp [ha] at hmv
  simp only [ha, if_true] at hmv
  have hold : w.loc a ∈ L := (hex (w.loc a)).mpr (by
    intro hemp; rw [hemp] at ha; exact (List.not_mem_nil a) ha)
  by_cases hempty : (w.grid (w.loc a)).erase a = []
  · simp only [hempty, if_true, hold, if_pos] at hmv
    rw [Option.some.injEq] at hmv
    subst hmv
    refine ⟨_, rfl, ?_⟩
    intro c
    rw [mem_insertIf]
    dsimp only
    by_cases hcp : c = p
    · subst hcp
      simp [hempty]
    · rw [if_neg hcp]
      by_cases hco : c = w.loc a
      · subst hco
        simp only [if_pos rfl, hempty]
        simp [hcp, Finset.mem_erase]
      · rw [if_neg hco]
        simp only [hcp, false_or, Finset.mem_erase]
        simp only [hex c, ne_eq, hco, not_false_eq_true, true_and]
  · simp only [hempty, if_false] at hmv
    rw [Option.some.injEq] at hmv
    subst hmv
    refine ⟨_, rfl, ?_⟩
    intro c
    rw [mem_insertIf]
    dsimp only
    by_cases hcp : c = p
    · subst hcp
      simp
    · rw [if_neg hcp]
      by_cases hco : c = w.loc a
      · subst hco
        simp only [if_pos rfl]
        simp [hcp, hold, hempty]
      · rw [if_neg hco]
        simp only [hcp, false_or]
        exact hex c

theorem applyMoves_exact (ms : List (ℕ × (ℕ × ℕ))) :
    ∀ (w : World) (L : Finset (ℕ × ℕ)) (w' : World),
      w.live_cells = some L → w.liveExact L →
      w.applyMoves ms = some w' →
      ∃ L', w'.live_cells = some L' ∧ w'.liveExact L' := by
  induction ms with
  | nil =>
    intro w L w' hlive hex h
    simp only [World.applyMoves, Option.some.injEq] at h
    subst h
    exact ⟨L, hlive, hex⟩
  | cons m ms ih =>
    intro w L w' hlive hex h
    obtain ⟨a, p⟩ := m
    simp only [World.applyMoves] at h
    cases hmv : w.move a p with
    | none => rw [hmv] at h; exact absurd h (by simp)
    | some w1 =>
      rw [hmv] at h
      obtain ⟨L1, hl1, he1⟩ := move_exact w L a p w1 hlive hex hmv
      exact ih w1 L1 w' hl1 he1 h

/-- C4: once the live-cell index is materialized by the first `World.step`,
after every subsequent (successful) `World.move` the index equals exactly
the set of coordinates with a non-empty resident set. -/
theorem C4_live_cells_exact (w : World) (ms : List (ℕ × (ℕ × ℕ)))
    (w' : World) (hb : w.residentsInBounds) (hnone : w.live_cells = none)
    (h : (w.stepLive).applyMoves ms = some w') :
    ∃ L, w'.live_cells = some L ∧
      ∀ c, c ∈ L ↔ w'.grid c ≠ [] := by
  obtain ⟨L0, hl0, he0⟩ := stepLive_exact w hb hnone
  obtain ⟨L, hl, he⟩ := applyMoves_exact ms (w.stepLive) L0 w' hl0 he0 h
  exact ⟨L, hl, he⟩

theorem mem_intRange (lo hi x : ℤ) : x ∈ intRange lo hi ↔ lo ≤ x ∧ x < hi := by
  simp only [intRange, List.mem_map, List.mem_range]
  constructor
  · rintro ⟨k, hk, rfl⟩; omega
  · rintro ⟨h1, h2⟩
    refine ⟨(x - lo).toNat, by omega, ?_⟩
    rw [Int.toNat_of_nonneg (by omega)]
    omega

/-- Membership in the neighborhood scan: exactly the cells of the clipped
half-open index box around `pos` (upper edges excluded) at squared
distance at most `r²`, except `pos` itself. -/
theorem mem_neighborsCompute (height width : ℕ) (pos : ℕ × ℕ) (r : ℤ)
    (c : ℕ × ℕ) (d2 : ℤ) :
    (c, d2) ∈ neighborsCompute height width pos r ↔
      (max 0 ((pos.1 : ℤ) - r) ≤ (c.1 : ℤ) ∧
       (c.1 : ℤ) < min (height : ℤ) ((pos.1 : ℤ) + r) ∧
       max 0 ((pos.2 : ℤ) - r) ≤ (c.2 : ℤ) ∧
       (c.2 : ℤ) < min (width : ℤ) ((pos.2 : ℤ) + r) ∧
       c ≠ pos ∧
       d2 = ((pos.1 : ℤ) - c.1) ^ 2 + ((pos.2 : ℤ) - c.2) ^ 2 ∧
       d2 ≤ r ^ 2) := by
  simp only [neighborsCompute, List.mem_flatMap, List.mem_filterMap]
  constructor
  · rintro ⟨i, hi, j, hj, hcond⟩
    rw [mem_intRange] at hi hj
    split_ifs at hcond with h1 h2
    · simp only [Option.some.injEq, Prod.mk.injEq] at hcond
      obtain ⟨hc, hd⟩ := hcond
      have hi0 : 0 ≤ i := le_trans (le_max_left _ _) hi.1
      have hj0 : 0 ≤ j := le_trans (le_max_left _ _) hj.1
      have hc1 : i.toNat = c.1 := congrArg Prod.fst hc
      have hc2 : j.toNat = c.2 := congrArg Prod.snd hc
      have hci : (c.1 : ℤ) = i := by omega
      have hcj : (c.2 : ℤ) = j := by omega
      rw [hci, hcj]
      refine ⟨hi.1, hi.2, hj.1, hj.2, ?_, hd.symm, hd ▸ h2⟩
      intro hceq
      subst hceq
      rcases h1 with h1 | h1
      · exact h1 hci.symm
      · exact h1 hcj.symm
  · rintro ⟨h1, h2, h3, h4, hne, hd2, hle⟩
    refine ⟨(c.1 : ℤ), ?_, (c.2 : ℤ), ?_, ?_⟩
    · rw [mem_intRange]; exact ⟨h1, h2⟩
    · rw [mem_intRange]; exact ⟨h3, h4⟩
    · have hne2 : (c.1 : ℤ) ≠ (pos.1 : ℤ) ∨ (c.2 : ℤ) ≠ (pos.2 : ℤ) := by
        by_cases hc1 : c.1 = pos.1
        · by_cases hc2 : c.2 = pos.2
          · exact absurd (Prod.ext hc1 hc2) hne
          · exact Or.inr (by exact_mod_cast hc2)
        · exact Or.inl (by exact_mod_cast hc1)
      rw [if_pos hne2, if_pos (hd2 ▸ hle)]
      simp only [Option.some.injEq, Prod.mk.injEq]
      refine ⟨?_, hd2.symm⟩
      rw [Int.toNat_natCast, Int.toNat_natCast]

/-- C9 counterexample: in a 3×3 world, cell (2,0) is at squared Euclidean
distance exactly 2² from (0,0), yet `neighborhood((0,0), 2)` omits it (the
`np.arange` upper bound excludes index `position + r`); moreover the memo
is keyed by position alone, so after a radius-1 query at (0,0) a radius-2
query at the same position returns the stale radius-1 result (the empty
list) although the radius-2 neighborhood is non-empty.  This refutes the
claim that the result is exactly the Euclidean ball and that memoization
is per (position, radius) pair. -/
theorem C9_neighborhood_counterexample :
    (((0 : ℤ) - 2) ^ 2 + ((0 : ℤ) - 0) ^ 2 ≤ (2 : ℤ) ^ 2 ∧
      ((2, 0) : ℕ × ℕ) ∉ (sampleWorld3.neighborhood (0, 0) 2).1.map Prod.fst) ∧
    ((((sampleWorld3.neighborhood (0, 0) 1).2).neighborhood (0, 0) 2).1 = [] ∧
      (sampleWorld3.neighborhood (0, 0) 2).1 ≠ []) := by
  decide

/-- C9 (amended): with a fresh cache entry for `pos`, `neighborhood`
returns exactly the cells of the clipped half-open index box
`[max(0,p₁-r), min(height,p₁+r)) × [max(0,p₂-r), min(width,p₂+r))` at
Euclidean distance at most `r` from `pos`, excluding `pos` itself; the
result is memoized per position, so a repeat query at the same position
(with the same or any radius) returns the identical list, also from any
world sharing that cache (unrelated mutations do not touch it). -/
theorem C9_neighborhood_amended (w : World) (pos : ℕ × ℕ) (r : ℤ)
    (hfresh : List.lookup pos w.neighbor_cache = none) :
    (∀ (c : ℕ × ℕ) (d2 : ℤ), ((c, d2) ∈ (w.neighborhood pos r).1 ↔
      (max 0 ((pos.1 : ℤ) - r) ≤ (c.1 : ℤ) ∧
       (c.1 : ℤ) < min (w.height : ℤ) ((pos.1 : ℤ) + r) ∧
       max 0 ((pos.2 : ℤ) - r) ≤ (c.2 : ℤ) ∧
       (c.2 : ℤ) < min (w.width : ℤ) ((pos.2 : ℤ) + r) ∧
       c ≠ pos ∧
       d2 = ((pos.1 : ℤ) - c.1) ^ 2 + ((pos.2 : ℤ) - c.2) ^ 2 ∧
       d2 ≤ r ^ 2))) ∧
    (∀ r2 : ℤ, (w.neighborhood pos r).2.neighborhood pos r2 =
      ((w.neighborhood pos r).1, (w.neighborhood pos r).2)) ∧
    (∀ (w2 : World) (r2 : ℤ),
      w2.neighbor_cache = (w.neighborhood pos r).2.neighbor_cache →
      (w2.neighborhood pos r2).1 = (w.neighborhood pos r).1) := by
  have hcall : w.neighborhood pos r =
      (neighborsCompute w.height w.width pos r,
       { w with neighbor_cache :=
          (pos, neighborsCompute w.height w.width pos r) ::
            w.neighbor_cache }) := by
    simp [World.neighborhood, hfresh]
  refine ⟨?_, ?_, ?_⟩
  · intro c d2
    rw [hcall]
    exact mem_neighborsCompute w.height w.width pos r c d2
  · intro r2
    rw [hcall]
    simp [World.neighborhood, List.lookup]
  · intro w2 r2 hc2
    rw [hcall] at hc2 ⊢
    simp [World.neighborhood, hc2, List.lookup]

/-- Witness for the amended C9 at the 3×3 sample world, position (0,0),
radius 2. -/
theorem C9_neighborhood_amended_witness :
    List.lookup ((0, 0) : ℕ × ℕ) sampleWorld3.neighbor_cache = none ∧
    ((∀ (c : ℕ × ℕ) (d2 : ℤ),
      ((c, d2) ∈ (sampleWorld3.neighborhood (0, 0) 2).1 ↔
      (max 0 ((((0, 0) : ℕ × ℕ).1 : ℤ) - 2) ≤ (c.1 : ℤ) ∧
       (c.1 : ℤ) < min (sampleWorld3.height : ℤ) ((((0, 0) : ℕ × ℕ).1 : ℤ) + 2) ∧
       max 0 ((((0, 0) : ℕ × ℕ).2 : ℤ) - 2) ≤ (c.2 : ℤ) ∧
       (c.2 : ℤ) < min (sampleWorld3.width : ℤ) ((((0, 0) : ℕ × ℕ).2 : ℤ) + 2) ∧
       c ≠ ((0, 0) : ℕ × ℕ) ∧
       d2 = ((((0, 0) : ℕ × ℕ).1 : ℤ) - c.1) ^ 2 +
         ((((0, 0) : ℕ × ℕ).2 : ℤ) - c.2) ^ 2 ∧
       d2 ≤ (2 : ℤ) ^ 2))) ∧
    (∀ r2 : ℤ, (sampleWorld3.neighborhood (0, 0) 2).2.neighborhood (0, 0) r2 =
      ((sampleWorld3.neighborhood (0, 0) 2).1,
       (sampleWorld3.neighborhood (0, 0) 2).2)) ∧
    (∀ (w2 : World) (r2 : ℤ),
      w2.neighbor_cache = (sampleWorld3.neighborhood (0, 0) 2).2.neighbor_cache →
      (w2.neighborhood (0, 0) r2).1 = (sampleWorld3.neighborhood (0, 0) 2).1)) :=
  ⟨rfl, C9_neighborhood_amended sampleWorld3 (0, 0) 2 rfl⟩

theorem zip_map_self {α β : Type} (F : α → β) (l : List α) :
    l.zip (l.map F) = l.map (fun a => (a, F a)) := by
  induction l with
  | nil => rfl
  | cons a l ih => simp only [List.map_cons, List.zip_cons_cons, ih]

theorem filter_states_length (l : List DAnimal) :
    (l.filter (fun a => decide (a.state = SIRV.S))).length +
    (l.filter (fun a => decide (a.state = SIRV.I))).length +
    (l.filter (fun a => decide (a.state = SIRV.R))).length +
    (l.filter (fun a => decide (a.state = SIRV.V))).length = l.length := by
  induction l with
  | nil => rfl
  | cons a l ih =>
    cases ha : a.state <;>
      simp only [List.filter_cons, ha, decide_True, decide_False,
        if_true, if_false, List.length_cons, decide_eq_true_eq] <;>
      simp [ha] <;> omega

/-- C10: a `Disease.step` over herds with zero animals performs no
division by zero (the pressure is 0 by the `popsize > 0` guard), consumes
no random draws, and leaves every herd unchanged. -/
theorem C10_disease_step_empty (pr : DParams) (dt : ℚ) (draws : ℕ → ℚ)
    (herds : List (List DAnimal)) (hempty : ∀ h ∈ herds, h = []) :
    infectionPressure pr.p_si 0 0 = 0 ∧
    diseaseStep pr dt draws herds = (herds, 0) := by
  have hflat : herds.flatten = [] := by
    induction herds with
    | nil => rfl
    | cons h hs ih =>
      rw [List.flatten_cons, hempty h (List.mem_cons_self _ _),
        List.nil_append]
      exact ih (fun x hx => hempty x (List.mem_cons_of_mem _ hx))
  refine ⟨by simp [infectionPressure], ?_⟩
  simp only [diseaseStep, hflat, List.filter_nil, List.length_nil]
  refine Prod.ext ?_ (by simp)
  show herds.map _ = herds
  have hcongr : ∀ h ∈ herds,
      h.filterMap (stepOutcome pr dt draws [] [] [] []) = h := by
    intro h hh
    rw [hempty h hh]
    rfl
  rw [List.map_congr_left hcongr]
  exact List.map_id' herds

/-- Witness for C10 at two empty herds. -/
theorem C10_disease_step_empty_witness :
    (∀ h ∈ ([[], []] : List (List DAnimal)), h = []) ∧
    (infectionPressure (1 : ℚ) 0 0 = 0 ∧
      diseaseStep ⟨1, 0, 0, 0, 0, 1⟩ 1 (fun _ => 0) [[], []] =
        ([[], []], 0)) :=
  ⟨by decide, C10_disease_step_empty ⟨1, 0, 0, 0, 0, 1⟩ 1 (fun _ => 0)
    [[], []] (by decide)⟩

/-- C6 counterexample: a population with base rate `p_si = 1.0`, one
Susceptible animal and no Infected animal.  The infection pressure is
`1.0 * 0 / 1 = 0`, so the Susceptible animal survives the step in state S
(its draw, 1/2, is a legitimate `rand.rand()` value in `[0,1)`), refuting
"every Susceptible transitions to Infected". -/
theorem C6_counterexample :
    ((0 : ℚ) ≤ 1 / 2 ∧ (1 / 2 : ℚ) < 1) ∧
    (diseaseStep ⟨1, 0, 0, 0, 0, 1⟩ 1 (fun _ => 1 / 2)
        [[⟨1, SIRV.S⟩]]).1 = [[⟨1, SIRV.S⟩]] := by
  constructor
  · constructor <;> norm_num
  · simp only [diseaseStep, List.flatten]
    simp +decide [stepOutcome, List.filter, List.filterMap,
      infectionPressure]

/-- C6 (amended): whenever the scaled infection pressure
`p_si · |I|/popsize · dt/timefactor` is at least 1 (with base rate 1.0
this requires at least one Infected animal and a long enough elapsed
step), every Susceptible animal in every herd transitions to Infected in
that single step; the herds are matched positionally with the step's
output. -/
theorem C6_all_susceptible_infected (pr : DParams) (dt : ℚ)
    (draws : ℕ → ℚ) (herds : List (List DAnimal))
    (hdraw : ∀ k, 0 ≤ draws k ∧ draws k < 1)
    (hp : 1 ≤ scaledPSI pr dt herds) :
    ∀ p ∈ herds.zip (diseaseStep pr dt draws herds).1,
      ∀ a ∈ p.1, a.state = SIRV.S → { a with state := SIRV.I } ∈ p.2 := by
  intro p hpmem a ha hstate
  set s := herds.flatten.filter (fun x => decide (x.state = SIRV.S)) with hs
  set i := herds.flatten.filter (fun x => decide (x.state = SIRV.I)) with hi
  set r := herds.flatten.filter (fun x => decide (x.state = SIRV.R)) with hr
  set v := herds.flatten.filter (fun x => decide (x.state = SIRV.V)) with hv
  have hzip : herds.zip ((diseaseStep pr dt draws herds).1) =
      herds.map (fun h =>
        (h, h.filterMap (stepOutcome pr dt draws s i r v))) := by
    exact zip_map_self _ herds
  rw [hzip] at hpmem
  obtain ⟨h, hh, hph⟩ := List.mem_map.mp hpmem
  rw [← hph] at ha ⊢
  refine List.mem_filterMap.mpr ⟨a, ha, ?_⟩
  have hlen : s.length + i.length + r.length + v.length =
      herds.flatten.length := filter_states_length _
  have hp2 : 1 ≤ infectionPressure pr.p_si i.length
      (s.length + i.length + r.length + v.length) *
      (dt / pr.disease_timefactor) := by
    rw [hlen]
    exact hp
  obtain ⟨aid, ast⟩ := a
  have hast : ast = SIRV.S := hstate
  subst hast
  have hcond : draws (s.indexOf ⟨aid, SIRV.S⟩) <
      infectionPressure pr.p_si i.length
        (s.length + i.length + r.length + v.length) *
        (dt / pr.disease_timefactor) :=
    lt_of_lt_of_le (hdraw _).2 hp2
  show stepOutcome pr dt draws s i r v ⟨aid, SIRV.S⟩ =
    some ⟨aid, SIRV.I⟩
  simp only [stepOutcome]
  rw [if_pos hcond]

/-- Witness for the amended C6: one Susceptible and one Infected animal,
base rate 1, `dt = 2`, `timefactor = 1`, so the scaled pressure is exactly
1 and the Susceptible animal is infected. -/
theorem C6_all_susceptible_infected_witness :
    (∀ k : ℕ, 0 ≤ (fun _ : ℕ => (1 / 2 : ℚ)) k ∧
      (fun _ : ℕ => (1 / 2 : ℚ)) k < 1) ∧
    1 ≤ scaledPSI ⟨1, 0, 0, 0, 0, 1⟩ 2 [[⟨1, SIRV.S⟩, ⟨2, SIRV.I⟩]] ∧
    (∀ p ∈ List.zip ([[⟨1, SIRV.S⟩, ⟨2, SIRV.I⟩]] : List (List DAnimal))
        (diseaseStep ⟨1, 0, 0, 0, 0, 1⟩ 2 (fun _ : ℕ => (1 / 2 : ℚ))
          [[⟨1, SIRV.S⟩, ⟨2, SIRV.I⟩]]).1,
      ∀ a ∈ p.1, a.state = SIRV.S → { a with state := SIRV.I } ∈ p.2) :=
  ⟨fun _ => ⟨by norm_num, by norm_num⟩,
   by simp +decide [scaledPSI, infectionPressure, List.flatten, List.filter],
   C6_all_susceptible_infected ⟨1, 0, 0, 0, 0, 1⟩ 2 (fun _ => 1 / 2)
     [[⟨1, SIRV.S⟩, ⟨2, SIRV.I⟩]] (fun _ => ⟨by norm_num, by norm_num⟩)
     (by simp +decide [scaledPSI, infectionPressure, List.flatten,
       List.filter])⟩

/-- C3 (code evidence): dispatching a stale `LIV_FERTILE` event for an
inactive (culled) animal mutates it — the driver (`driver.py` lines
143–144) forwards `LIV_FERTILE` to `Animal.handle_event` with no
`active` check and the handler (`livestock.py` lines 152–155) sets
`nursing := false, fertile := true` — while stale `CULL_OLDAGE` and
`WEAROFF` events on the same inactive animal are no-ops, contradicting
the claim that every animal-subject handler treats stale events as
no-ops. -/
theorem C3_stale_liv_fertile_mutates :
    staleAnimal.active = false ∧
    driverDispatch ⟨0, 0, 0, 0, 0, 0, 1⟩ 0 Event.LIV_FERTILE staleAnimal
        [] 0 0 0 0 =
      some ({ staleAnimal with nursing := false, fertile := true }, [], []) ∧
    ({ staleAnimal with nursing := false, fertile := true } : Animal) ≠
      staleAnimal ∧
    driverDispatch ⟨0, 0, 0, 0, 0, 0, 1⟩ 0 Event.CULL_OLDAGE staleAnimal
        [] 0 0 0 0 = some (staleAnimal, [], []) ∧
    driverDispatch ⟨0, 0, 0, 0, 0, 0, 1⟩ 0 Event.WEAROFF staleAnimal
        [] 0 0 0 0 = some (staleAnimal, [], []) := by
  refine ⟨rfl, rfl, ?_, rfl, rfl⟩
  intro hfalse
  have hft : ({ staleAnimal with nursing := false, fertile := true } : Animal).fertile = staleAnimal.fertile := by
    rw [hfalse]
  simp [staleAnimal] at hft

/-- C8: handling `LIV_BIRTH` for a pregnant (hence, per the handler's
assertion, non-fertile) animal produces exactly one offspring, appended to
the parent's herd, whose disease map assigns `Susceptible` to exactly the
diseases tracked by the parent; the parent's `pregnant` flag clears and
`nursing` sets; the handler schedules the parent's `LIV_FERTILE` at
`now + nursing_period`, the child's `CULL_OLDAGE` at `now + sampled
lifespan`, and, for a female child, the child's `LIV_FERTILE` maturity
event at `now + maturity`. -/
theorem C8_birth_event (params : LParams) (a : Animal) (herd : List Animal)
    (now u z : ℚ) (childId : ℕ)
    (hpreg : a.pregnant = true) (hfert : a.fertile = false) :
    ∃ child : Animal,
      Animal.handle_event params a herd now Event.LIV_BIRTH u z childId =
        some ({ a with pregnant := false, nursing := true },
          herd ++ [child],
          ((now + (params.death_sigma * z + params.death_mu),
              Event.CULL_OLDAGE, childId) ::
            (if child.gender = Gender.FEMALE then
              [(now + params.maturity, Event.LIV_FERTILE, childId)]
             else [])) ++
          [(now + params.nursing_period, Event.LIV_FERTILE, a.id)]) ∧
      child.id = childId ∧
      child.active = true ∧
      child.birthday = now ∧
      child.diseases = a.diseases.map (fun p => (p.1, SIRV.S)) ∧
      (∀ p ∈ child.diseases, p.2 = SIRV.S) ∧
      child.diseases.map Prod.fst = a.diseases.map Prod.fst ∧
      (child.gender = Gender.FEMALE ↔ u > params.bull_probability) := by
  refine ⟨(Animal.spawn params a now u z childId).1, ?_, rfl, rfl, rfl,
    rfl, ?_, ?_, ?_⟩
  · show Animal.handle_event params a herd now Event.LIV_BIRTH u z childId
      = _
    simp only [Animal.handle_event, hpreg, hfert, Bool.not_false,
      Bool.and_self, if_true]
    rfl
  · intro p hp
    simp only [Animal.spawn] at hp
    obtain ⟨q, _, rfl⟩ := List.mem_map.mp hp
    rfl
  · show (a.diseases.map (fun p => (p.1, SIRV.S))).map Prod.fst = _
    rw [List.map_map]
    rfl
  · show (if u > params.bull_probability then Gender.FEMALE
      else Gender.MALE) = Gender.FEMALE ↔ _
    by_cases hu : u > params.bull_probability
    · simp [hu]
    · simp [hu]

/-- Witness for C8: a concrete pregnant cow with two tracked diseases
gives birth; the gender draw 1 exceeds bull probability 1/2, so the child
is female. -/
theorem C8_birth_event_witness :
    ((⟨9, Gender.FEMALE, (-700 : ℚ), true, false, true, false, 1,
        [(0, SIRV.I), (1, SIRV.V)]⟩ : Animal).pregnant = true) ∧
    ((⟨9, Gender.FEMALE, (-700 : ℚ), true, false, true, false, 1,
        [(0, SIRV.I), (1, SIRV.V)]⟩ : Animal).fertile = false) ∧
    ∃ child : Animal,
      Animal.handle_event ⟨1/2, 240, 285, 400, 3000, 0, 1⟩
          (⟨9, Gender.FEMALE, (-700 : ℚ), true, false, true, false, 1,
            [(0, SIRV.I), (1, SIRV.V)]⟩ : Animal) [] 0 Event.LIV_BIRTH
          1 0 42 =
        some ({ (⟨9, Gender.FEMALE, (-700 : ℚ), true, false, true, false,
            1, [(0, SIRV.I), (1, SIRV.V)]⟩ : Animal) with
            pregnant := false, nursing := true },
          [] ++ [child],
          (((0 : ℚ) + ((0 : ℚ) * 0 + 3000), Event.CULL_OLDAGE, 42) ::
            (if child.gender = Gender.FEMALE then
              [((0 : ℚ) + 400, Event.LIV_FERTILE, 42)]
             else [])) ++
          [((0 : ℚ) + 240, Event.LIV_FERTILE, 9)]) ∧
      child.id = 42 ∧
      child.active = true ∧
      child.birthday = 0 ∧
      child.diseases =
        [(0, SIRV.I), (1, SIRV.V)].map (fun p => (p.1, SIRV.S)) ∧
      (∀ p ∈ child.diseases, p.2 = SIRV.S) ∧
      child.diseases.map Prod.fst =
        [(0, SIRV.I), (1, SIRV.V)].map Prod.fst ∧
      (child.gender = Gender.FEMALE ↔ (1 : ℚ) > 1/2) :=
  ⟨rfl, rfl,
   C8_birth_event ⟨1/2, 240, 285, 400, 3000, 0, 1⟩
     ⟨9, Gender.FEMALE, -700, true, false, true, false, 1,
       [(0, SIRV.I), (1, SIRV.V)]⟩ [] 0 1 0 42 rfl rfl⟩

/-- Bracket invariant of the bisection loop: with enough fuel the loop
returns `r` with `b r ≤ q` (unless `r` is the leftmost bracket) and
`q < b (r+1)` (unless `r+1` is the rightmost), staying inside the
boundary array. -/
theorem bisectLoop_spec (b : ℕ → ℚ) (q : ℚ) (n : ℕ) :
    ∀ (fuel lo hi idx : ℕ),
      hi ≤ n - 1 → 1 ≤ hi - lo → hi - lo ≤ fuel →
      (hi - lo = 1 → idx = lo) →
      (2 ≤ hi - lo → lo < idx ∧ idx < hi) →
      (b lo ≤ q ∨ lo = 0) → (q < b hi ∨ hi = n - 1) →
      ((b (bisectLoop b q fuel lo hi idx) ≤ q ∨
          bisectLoop b q fuel lo hi idx = 0) ∧
       (q < b (bisectLoop b q fuel lo hi idx + 1) ∨
          bisectLoop b q fuel lo hi idx + 1 = n - 1) ∧
       bisectLoop b q fuel lo hi idx + 1 ≤ n - 1) := by
  intro fuel
  induction fuel with
  | zero =>
    intro lo hi idx h1 h2 h3 h4 h5 h6 h7
    exfalso
    omega
  | succ f ih =>
    intro lo hi idx h1 h2 h3 h4 h5 h6 h7
    simp only [bisectLoop]
    by_cases hgt : hi - lo > 1
    · rw [if_pos hgt]
      obtain ⟨hl, hr⟩ := h5 (by omega)
      by_cases hq : q < b idx
      · rw [if_pos hq]
        exact ih lo idx _ (by omega) (by omega) (by omega)
          (fun hd => by omega) (fun hd => ⟨by omega, by omega⟩)
          h6 (Or.inl hq)
      · rw [if_neg hq]
        exact ih idx hi _ (by omega) (by omega) (by omega)
          (fun hd => by omega) (fun hd => ⟨by omega, by omega⟩)
          (Or.inl (le_of_not_lt hq)) h7
    · rw [if_neg hgt]
      have hone : hi - lo = 1 := by omega
      have hid : idx = lo := h4 hone
      have hhi : hi = idx + 1 := by omega
      rw [hhi] at h7
      refine ⟨?_, h7, by omega⟩
      rw [hid]
      exact h6

/-- The initial probe `n / 2` and bracket `[0, n-1]` satisfy the loop
invariant for `n ≥ 3`, so the search lands in a valid bracket. -/
theorem bisectSearch_spec (b : ℕ → ℚ) (n : ℕ) (q : ℚ) (hn : 3 ≤ n) :
    (b (bisectSearch b n q) ≤ q ∨ bisectSearch b n q = 0) ∧
    (q < b (bisectSearch b n q + 1) ∨ bisectSearch b n q + 1 = n - 1) ∧
    bisectSearch b n q + 1 ≤ n - 1 :=
  bisectLoop_spec b q n n 0 (n - 1) (n / 2) (by omega) (by omega)
    (by omega) (fun hd => by omega) (fun hd => ⟨by omega, by omega⟩)
    (Or.inr rfl) (Or.inr rfl)

/-- Weak monotonicity of the centers from strict adjacent increase. -/
theorem centers_mono (c : ℕ → ℚ) (m : ℕ)
    (hmono : ∀ k, k + 1 < m → c k < c (k + 1)) :
    ∀ k l, k ≤ l → l < m → c k ≤ c l := by
  intro k l
  induction l with
  | zero =>
    intro hkl _
    have hk0 : k = 0 := by omega
    rw [hk0]
  | succ j ih =>
    intro hkl hl
    by_cases hkj : k = j + 1
    · rw [hkj]
    · have hkle : k ≤ j := by omega
      exact le_trans (ih hkle (by omega)) (le_of_lt (hmono j hl))

/-- One-axis nearest-center correctness: on strictly increasing centers
(`m ≥ 2`), the bisection over the midpoint boundaries returns an in-range
index whose center is at minimum distance from the query among all
centers. -/
theorem bisect_nearest (c : ℕ → ℚ) (m : ℕ) (q : ℚ) (hm : 2 ≤ m)
    (hmono : ∀ k, k + 1 < m → c k < c (k + 1)) :
    bisectSearch (boundaries c m) (m + 1) q < m ∧
    ∀ j, j < m →
      (q - c (bisectSearch (boundaries c m) (m + 1) q)) ^ 2 ≤
        (q - c j) ^ 2 := by
  obtain ⟨h1, h2, h3⟩ :=
    bisectSearch_spec (boundaries c m) (m + 1) q (by omega)
  set r := bisectSearch (boundaries c m) (m + 1) q with hr
  have hrm : r < m := by omega
  refine ⟨hrm, ?_⟩
  intro j hj
  rcases lt_trichotomy j r with hjr | hjr | hjr
  · have hbr : boundaries c m r ≤ q := by
      rcases h1 with h | h
      · exact h
      · exfalso; omega
    have hbr_eq : boundaries c m r = (c (r - 1) + c r) / 2 := by
      simp only [boundaries]
      rw [if_neg (by omega), if_neg (by omega)]
    have hcj1 : c j ≤ c (r - 1) :=
      centers_mono c m hmono j (r - 1) (by omega) (by omega)
    have hcj2 : c j ≤ c r := centers_mono c m hmono j r (by omega) hrm
    have hsum : c j + c r ≤ 2 * q := by
      rw [hbr_eq] at hbr
      linarith
    have key : 0 ≤ (c r - c j) * (2 * q - c j - c r) :=
      mul_nonneg (by linarith) (by linarith)
    nlinarith [key]
  · exact le_of_eq (by rw [hjr])
  · have hq2 : q < boundaries c m (r + 1) := by
      rcases h2 with h | h
      · exact h
      · exfalso; omega
    have hb_eq : boundaries c m (r + 1) = (c r + c (r + 1)) / 2 := by
      simp only [boundaries]
      rw [if_neg (by omega), if_neg (by omega)]
      simp
    have hcj1 : c (r + 1) ≤ c j :=
      centers_mono c m hmono (r + 1) j (by omega) hj
    have hcj2 : c r ≤ c j := centers_mono c m hmono r j (by omega) hj
    have hsum : 2 * q < c r + c j := by
      rw [hb_eq] at hq2
      linarith
    have key : 0 ≤ (c j - c r) * (c j + c r - 2 * q) :=
      mul_nonneg (by linarith) (by linarith)
    nlinarith [key]

/-- C5 counterexample: on a 1×2 grid (one row, `first_dim_lat = true`, so
the latitude axis has a single center and its boundary array has length
`n = 2`) the `while hi-lo > 1` loop never executes and `nearest_cell`
returns the initial probe `n // 2 = 1` as the row index — out of bounds
for a grid whose only row is 0, hence not the index of any grid cell, let
alone the minimum-distance one.  (The garbage boundary entries that
`boundaries` would produce for one center are never read.) -/
theorem C5_nearest_cell_counterexample :
    (nearest_cell (boundaries (fun _ => (0 : ℚ)) 1)
        (boundaries (fun k => (k : ℚ)) 2) (1 + 1) (2 + 1) true
        ((0 : ℚ), (0 : ℚ))).1 = 1 ∧
    ¬((nearest_cell (boundaries (fun _ => (0 : ℚ)) 1)
        (boundaries (fun k => (k : ℚ)) 2) (1 + 1) (2 + 1) true
        ((0 : ℚ), (0 : ℚ))).1 < 1) := by
  decide

/-- C5 (amended): on an axis-aligned grid with strictly increasing
per-axis cell centers and at least two centers per axis, `nearest_cell`
over the precomputed midpoint boundaries returns an in-bounds
`(row, col)` index whose cell center minimizes the (squared) Euclidean
distance to the query point over all cells — it agrees with a brute-force
minimum-distance search.  (For a single-cell axis the claim fails: see
the counterexample above.) -/
theorem C5_nearest_cell_minimizes (latC lonC : ℕ → ℚ) (mLat mLon : ℕ)
    (fdl : Bool) (qlat qlon : ℚ) (hLat : 2 ≤ mLat) (hLon : 2 ≤ mLon)
    (hmLat : ∀ k, k + 1 < mLat → latC k < latC (k + 1))
    (hmLon : ∀ k, k + 1 < mLon → lonC k < lonC (k + 1)) :
    (nearest_cell (boundaries latC mLat) (boundaries lonC mLon)
        (mLat + 1) (mLon + 1) fdl (qlat, qlon)).1 <
      (if fdl then mLat else mLon) ∧
    (nearest_cell (boundaries latC mLat) (boundaries lonC mLon)
        (mLat + 1) (mLon + 1) fdl (qlat, qlon)).2 <
      (if fdl then mLon else mLat) ∧
    ∀ ij : ℕ × ℕ, ij.1 < (if fdl then mLat else mLon) →
      ij.2 < (if fdl then mLon else mLat) →
      sqDist (qlat, qlon) (cellCenter latC lonC fdl
        (nearest_cell (boundaries latC mLat) (boundaries lonC mLon)
          (mLat + 1) (mLon + 1) fdl (qlat, qlon))) ≤
      sqDist (qlat, qlon) (cellCenter latC lonC fdl ij) := by
  obtain ⟨hrLat, hnLat⟩ := bisect_nearest latC mLat qlat hLat hmLat
  obtain ⟨hrLon, hnLon⟩ := bisect_nearest lonC mLon qlon hLon hmLon
  cases fdl with
  | true =>
    simp only [nearest_cell, cellCenter, sqDist, if_true]
    refine ⟨hrLat, hrLon, ?_⟩
    intro ij hij1 hij2
    exact add_le_add (hnLat ij.1 hij1) (hnLon ij.2 hij2)
  | false =>
    simp only [nearest_cell, cellCenter, sqDist, if_false,
      Bool.false_eq_true]
    refine ⟨hrLon, hrLat, ?_⟩
    intro ij hij1 hij2
    exact add_le_add (hnLat ij.2 hij2) (hnLon ij.1 hij1)

/-- Witness for C5 on a concrete 2×2 grid with unit-spaced centers,
queried at the origin. -/
theorem C5_nearest_cell_minimizes_witness :
    ((2 : ℕ) ≤ 2) ∧
    (nearest_cell (boundaries (fun k => (k : ℚ)) 2)
        (boundaries (fun k => (k : ℚ)) 2) 3 3 true (0, 0)).1 <
      (if true then 2 else 2) ∧
    (nearest_cell (boundaries (fun k => (k : ℚ)) 2)
        (boundaries (fun k => (k : ℚ)) 2) 3 3 true (0, 0)).2 <
      (if true then 2 else 2) ∧
    ∀ ij : ℕ × ℕ, ij.1 < (if true then 2 else 2) →
      ij.2 < (if true then 2 else 2) →
      sqDist (0, 0) (cellCenter (fun k => (k : ℚ)) (fun k => (k : ℚ)) true
        (nearest_cell (boundaries (fun k => (k : ℚ)) 2)
          (boundaries (fun k => (k : ℚ)) 2) 3 3 true (0, 0))) ≤
      sqDist (0, 0)
        (cellCenter (fun k => (k : ℚ)) (fun k => (k : ℚ)) true ij) :=
  ⟨le_refl 2,
   C5_nearest_cell_minimizes (fun k => (k : ℚ)) (fun k => (k : ℚ)) 2 2
     true 0 0 (le_refl 2) (le_refl 2)
     (fun k hk => by
       have h0 : k = 0 := by omega
       subst h0
       norm_num)
     (fun k hk => by
       have h0 : k = 0 := by omega
       subst h0
       norm_num)⟩

/-- Witness for C4 at the sample world. -/
theorem C4_live_cells_exact_witness :
    sampleWorld.residentsInBounds ∧ sampleWorld.live_cells = none ∧
    ∃ L, (World.stepLive sampleWorld).live_cells = some L ∧
      ∀ c, c ∈ L ↔ (World.stepLive sampleWorld).grid c ≠ [] := by
  have hb : sampleWorld.residentsInBounds := by
    intro c hc
    by_cases h : c = (0, 0)
    · subst h; exact ⟨Nat.zero_lt_one, Nat.zero_lt_one⟩
    · have hgc : sampleWorld.grid c = [] := by
        show (if c = (0, 0) then [7] else []) = []
        rw [if_neg h]
      exact absurd hgc hc
  refine ⟨hb, rfl, ?_⟩
  exact C4_live_cells_exact sampleWorld [] (World.stepLive sampleWorld)
    hb rfl rfl

/-- Witness for C7 at a concrete clock and dates. -/
theorem C7_set_time_monotone_witness :
    ((∃ e, Time.set_time ⟨0, 5, 7, none⟩ 5 = .error e) ↔ (5 : ℤ) < 5) ∧
    ((5 : ℤ) ≤ 5 →
      Time.set_time ⟨0, 5, 7, none⟩ 5 = .ok ⟨0, 5, 7, none⟩) ∧
    (∀ tm', Time.set_time ⟨0, 5, 7, none⟩ 5 = .ok tm' →
      tm'.current_time = 5 ∧ (5 : ℤ) ≤ tm'.current_time) ∧
    (∀ ts tm', applySetTimes ⟨0, 5, 7, none⟩ ts = .ok tm' →
      (5 : ℤ) ≤ tm'.current_time) :=
  C7_set_time_monotone ⟨0, 5, 7, none⟩ 5

end PastoralScape

